import Mathlib

/-!
Verification of the hybrid retrieval and ranking pipeline of the
`agentic-rag` repository: reciprocal rank fusion, query expansion,
reranking fallback, the retrieval orchestrator, the text tool-call
parsers and the tool-orchestration loops.

Definitions are shallow embeddings of the Python sources under
`backend/app/services/` (`retrieval.py`, `query_expansion.py`,
`reranker.py`, `llm.py`, `sub_agent.py`).  Python float scores are
modelled as exact rationals, Python dicts keyed by chunk id as
insertion-ordered association lists, and `list.sort(key=..., reverse=True)`
as a stable descending insertion sort.
-/

namespace AgenticRag

/-- A retrieval candidate as far as fusion is concerned: `chunk["id"]`
(stringified) plus an opaque payload standing for all other dict fields,
so that distinct dict objects with the same id can be told apart. -/
structure Chunk where
  id : String
  content : String
deriving DecidableEq, Repr

/-- `scores[chunk_id] = scores.get(chunk_id, 0.0) + v` fused with the
`chunk_map.setdefault`-style insertion of `retrieval.py` lines 67-70:
Python dicts are insertion ordered, an update keeps the key's position,
a new key is appended; both dicts gain a key at exactly the same moment,
so they are modelled as one association list `id ↦ (first chunk, score)`. -/
def addContribution : List (String × Chunk × ℚ) → Chunk → ℚ → List (String × Chunk × ℚ)
  | [], c, v => [(c.id, c, v)]
  | (cid, c0, v0) :: rest, c, v =>
    if cid = c.id then (cid, c0, v0 + v) :: rest
    else (cid, c0, v0) :: addContribution rest c v

/-- The inner loop `for rank, chunk in enumerate(results)` of
`reciprocal_rank_fusion`, with the running rank made explicit. -/
def processList (k : ℕ) : List (String × Chunk × ℚ) → ℕ → List Chunk → List (String × Chunk × ℚ)
  | acc, _, [] => acc
  | acc, rank, c :: cs =>
      processList k (addContribution acc c (1 / ((k : ℚ) + rank + 1))) (rank + 1) cs

/-- Stable insertion placing `x` after every element of at least equal
score: the unique stable descending sort, which is what Python's
`list.sort(key=lambda c: c["rrf_score"], reverse=True)` computes. -/
def insertDesc {α : Type} (score : α → ℚ) (x : α) : List α → List α
  | [] => [x]
  | y :: ys => if score y ≤ score x then x :: y :: ys else y :: insertDesc score x ys

/-- Stable descending sort by `score`. -/
def sortDesc {α : Type} (score : α → ℚ) : List α → List α
  | [] => []
  | x :: xs => insertDesc score x (sortDesc score xs)

/-- `reciprocal_rank_fusion(result_lists, k)` from
`backend/app/services/retrieval.py` lines 54-80.  The returned list pairs
each merged chunk with the `rrf_score` the Python code writes into it. -/
def reciprocal_rank_fusion (result_lists : List (List Chunk)) (k : ℕ) : List (Chunk × ℚ) :=
  let entries := result_lists.foldl (fun acc results => processList k acc 0 results) []
  sortDesc Prod.snd (entries.map (fun e => (e.2.1, e.2.2)))

/-- Specification-side score of one list: the sum of `1 / (k + rank + 1)`
over every rank position whose chunk has id `cid`. -/
def listScore (k : ℕ) (cid : String) : ℕ → List Chunk → ℚ
  | _, [] => 0
  | rank, c :: cs =>
      (if c.id = cid then 1 / ((k : ℚ) + rank + 1) else 0) + listScore k cid (rank + 1) cs

/-- Specification-side total score of a chunk id: contributions summed
across every list and every occurrence. -/
def chunkScore (result_lists : List (List Chunk)) (k : ℕ) (cid : String) : ℚ :=
  (result_lists.map (listScore k cid 0)).sum

/-- First chunk object carrying id `cid`, scanning lists in order and
each list in rank order. -/
def firstChunk (result_lists : List (List Chunk)) (cid : String) : Option Chunk :=
  result_lists.flatten.find? (fun c => c.id = cid)

/-- Lookup in the fused entry list (Python's `scores[chunk_id]` /
`chunk_map[chunk_id]`). -/
def lookupEntry (l : List (String × Chunk × ℚ)) (cid : String) : Option (Chunk × ℚ) :=
  (l.find? (fun e => e.1 = cid)).map (fun e => e.2)

/-- The entry list produced by fusing lists whose ids are fresh: one entry
per chunk, in rank order, scored by `f rank`. -/
def rankEntries (f : ℕ → ℚ) : ℕ → List Chunk → List (String × Chunk × ℚ)
  | _, [] => []
  | rank, c :: cs => (c.id, c, f rank) :: rankEntries f (rank + 1) cs

/-- `rankEntries` projected to output pairs. -/
def rankPairs (f : ℕ → ℚ) : ℕ → List Chunk → List (Chunk × ℚ)
  | _, [] => []
  | rank, c :: cs => (c, f rank) :: rankPairs f (rank + 1) cs

/-! Object-level model of fusion, tracking the mutation
`chunk["rrf_score"] = score` that `retrieval.py` line 76 performs on the
dict objects contained in the input lists.  The heap is a list of chunk
dict objects; result lists hold references (indices) into it. -/

/-- A Python chunk dict object: `id` and `content` stand for all keys other
than `rrf_score`, which is absent (`none`) until fusion writes it. -/
structure ChunkObj where
  id : String
  content : String
  rrf_score : Option ℚ
deriving DecidableEq, Repr

/-- The in-place update `chunk["rrf_score"] = q` on the heap object at
index `ref`. -/
def writeScore : List ChunkObj → ℕ → ℚ → List ChunkObj
  | [], _, _ => []
  | c :: cs, 0, q => { c with rrf_score := some q } :: cs
  | c :: cs, n + 1, q => c :: writeScore cs n q

/-- `str(chunk["id"])` for the object a reference points at.  References
produced by the search backends are always in range; an out-of-range read
(unreachable in the Python code, which would raise) yields a dummy id. -/
def refId (heap : List ChunkObj) (ref : ℕ) : String :=
  ((heap[ref]?).map ChunkObj.id).getD ""

/-- `addContribution` at the reference level: scores keyed by chunk id,
`chunk_map` keeping the first reference seen for each id. -/
def addContributionRef : List (String × ℕ × ℚ) → String → ℕ → ℚ → List (String × ℕ × ℚ)
  | [], cid, ref, v => [(cid, ref, v)]
  | (cid0, r0, v0) :: rest, cid, ref, v =>
    if cid0 = cid then (cid0, r0, v0 + v) :: rest
    else (cid0, r0, v0) :: addContributionRef rest cid ref v

/-- The `for rank, chunk in enumerate(results)` loop at the reference
level. -/
def processListRef (heap : List ChunkObj) (k : ℕ) :
    List (String × ℕ × ℚ) → ℕ → List ℕ → List (String × ℕ × ℚ)
  | acc, _, [] => acc
  | acc, rank, r :: rs =>
      processListRef heap k
        (addContributionRef acc (refId heap r) r (1 / ((k : ℚ) + rank + 1))) (rank + 1) rs

/-- Object-level `reciprocal_rank_fusion`: returns the heap after the
`chunk["rrf_score"] = score` writes together with the merged references
in descending score order.  Each first-occurrence object receives exactly
its own entry's score (entries carry pairwise-distinct ids, hence
pairwise-distinct objects), so sorting by the entry score equals Python's
re-reading of `c["rrf_score"]`. -/
def reciprocal_rank_fusion_store (heap : List ChunkObj) (result_lists : List (List ℕ))
    (k : ℕ) : List ChunkObj × List ℕ :=
  let entries := result_lists.foldl (fun acc rs => processListRef heap k acc 0 rs) []
  let heap' := entries.foldl (fun h e => writeScore h e.2.1 e.2.2) heap
  let merged := sortDesc Prod.snd (entries.map (fun e => (e.2.1, e.2.2)))
  (heap', merged.map Prod.fst)

/-! Reranker (`backend/app/services/reranker.py`) and query expansion
(`backend/app/services/query_expansion.py`).  The LLM call together with
the JSON decoding and pydantic validation of its response is modelled by
an `Option` argument: `none` is any failure caught by the `except` block
(network error, malformed JSON, schema mismatch), `some` a validated
payload. -/

/-- One element of `RerankResult.rankings`. -/
structure ChunkRelevance where
  chunk_id : String
  relevance_score : ℚ
deriving DecidableEq, Repr

/-- `top_n = top_n or settings.rerank_top_n`: both `None` and `0` are falsy
in Python. -/
def effectiveTopN : Option ℕ → ℕ → ℕ
  | none, dflt => dflt
  | some n, dflt => if n = 0 then dflt else n

/-- `score_map = {r.chunk_id: r.relevance_score for r in result.rankings}`
followed by `score_map.get(str(c["id"]), 0.0)`; a dict comprehension keeps
the last occurrence of a duplicated key. -/
def scoreOf (rankings : List ChunkRelevance) (cid : String) : ℚ :=
  match rankings.reverse.find? (fun r => r.chunk_id = cid) with
  | some r => r.relevance_score
  | none => 0

/-- `rerank_chunks(query, chunks, top_n)` from `reranker.py` lines 35-78.
On success the chunks are stably sorted by descending `rerank_score`
(which the Python code writes into each dict as `scoreOf rankings id`)
and truncated; on any failure the original order is truncated.  `query`
only feeds the prompt, which the `llm` argument abstracts. -/
def rerank_chunks (query : String) (chunks : List Chunk) (top_n : Option ℕ)
    (rerank_top_n : ℕ) (llm : Option (List ChunkRelevance)) : List Chunk :=
  let topN := effectiveTopN top_n rerank_top_n
  if chunks = [] then []
  else
    match llm with
    | none => chunks.take topN
    | some rankings => (sortDesc (fun c => scoreOf rankings c.id) chunks).take topN

/-- `generate_sub_queries(query, count)` from `query_expansion.py` lines
27-46: on success returns `result.queries[:count]`, on any failure `[]`.
`query` only feeds the prompt, which the `llm` argument abstracts. -/
def generate_sub_queries (query : String) (count : ℕ)
    (llm : Option (List String)) : List String :=
  match llm with
  | none => []
  | some queries => queries.take count

/-- `settings.search_mode`. -/
inductive SearchMode
  | semantic
  | keyword
  | hybrid
deriving DecidableEq, Repr

/-- The settings fields `retrieve_chunks` reads. -/
structure Settings where
  search_mode : SearchMode
  rag_fusion_enabled : Bool
  rag_fusion_query_count : ℕ
  rrf_k : ℕ
  rerank_enabled : Bool
  rerank_top_n : ℕ
deriving Repr

/-- `retrieve_chunks` from `retrieval.py` lines 83-135.  The semantic and
keyword search backends are capability parameters of the query (the other
arguments they receive are fixed across sub-queries), `sub_queries` is the
value `await generate_sub_queries(...)` produced, and `rerankFn` the
reranking pass applied to the original query when enabled. -/
def retrieve_chunks (sem kw : String → List Chunk)
    (rerankFn : String → List Chunk → ℕ → List Chunk) (st : Settings)
    (query : String) (sub_queries : List String) (top_k : ℕ) : List Chunk :=
  let all_queries := if st.rag_fusion_enabled then [query] ++ sub_queries else [query]
  let retrieveOne := fun q =>
    match st.search_mode with
    | .semantic => sem q
    | .keyword => kw q
    | .hybrid => (reciprocal_rank_fusion [sem q, kw q] st.rrf_k).map Prod.fst
  let per_query_results := all_queries.map retrieveOne
  let results :=
    match per_query_results with
    | [r] => r
    | rs => (reciprocal_rank_fusion rs st.rrf_k).map Prod.fst
  if st.rerank_enabled ∧ results ≠ [] then rerankFn query results top_k
  else results.take top_k

/-! Text tool-call parsers of `backend/app/services/llm.py` (lines
235-257) and `backend/app/services/sub_agent.py` (lines 76-94).  Both run
`re.findall` with the patterns `<function=(\w+)>(.*?)</function>` and
`<parameter=(\w+)>(.*?)</parameter>` under `re.DOTALL`; the scanner below
implements exactly these two patterns: a literal-prefix search, a greedy
`\w+` capture that must be followed by `>`, and a non-greedy body ending
at the nearest closing tag. -/

/-- Python's `\w` character class (the inputs exercised are ASCII). -/
def isWordChar (c : Char) : Bool := c.isAlphanum || c = '_'

/-- Splits at the first occurrence of `pat`: the characters before it and
the suffix after it, or `none` when `pat` does not occur. -/
def splitAtSub : List Char → List Char → Option (List Char × List Char)
  | [], pat => if pat.isEmpty then some ([], []) else none
  | c :: cs, pat =>
    if pat.isPrefixOf (c :: cs) then some ([], (c :: cs).drop pat.length)
    else (splitAtSub cs pat).map (fun p => (c :: p.1, p.2))

/-- All matches of `openTag (\w+) > (.*?) closeTag` in order, non-greedy
body, non-overlapping, as `re.findall` returns them.  Fuel bounds the scan
(each step consumes at least the open tag); `input.length` suffices. -/
def findTagMatches (openTag closeTag : List Char) : ℕ → List Char → List (String × List Char)
  | 0, _ => []
  | fuel + 1, s =>
    match splitAtSub s openTag with
    | none => []
    | some (_, rest) =>
      let name := rest.takeWhile isWordChar
      let rest2 := rest.dropWhile isWordChar
      match rest2 with
      | '>' :: body0 =>
        if name.isEmpty then findTagMatches openTag closeTag fuel rest
        else
          match splitAtSub body0 closeTag with
          | none => []
          | some (body, rest3) =>
            (String.mk name, body) :: findTagMatches openTag closeTag fuel rest3
      | _ => findTagMatches openTag closeTag fuel rest

/-- Python dict assignment `params[name] = value`: an existing key is
updated in place, a new key appended. -/
def dictInsert {β : Type} : List (String × β) → String → β → List (String × β)
  | [], key, val => [(key, val)]
  | (k0, v0) :: rest, key, val =>
    if k0 = key then (k0, val) :: rest else (k0, v0) :: dictInsert rest key val

/-- Python `str.strip()`: leading and trailing whitespace removed. -/
def stripChars (s : List Char) : List Char :=
  ((s.dropWhile Char.isWhitespace).reverse.dropWhile Char.isWhitespace).reverse

/-- A parsed tool call `{"name": ..., "arguments": {...}}`. -/
structure ToolCall where
  name : String
  arguments : List (String × String)
deriving DecidableEq, Repr

/-- The parameter dict built from the `<parameter=...>` matches of one
function body, values stripped. -/
def buildParams (found : List (String × List Char)) : List (String × String) :=
  found.foldl (fun ps m => dictInsert ps m.1 (String.mk (stripChars m.2))) []

/-- `_parse_text_tool_calls(content)` from `llm.py` lines 235-257. -/
def _parse_text_tool_calls (content : String) : Option (List ToolCall) :=
  let cs := content.toList
  let found := findTagMatches "<function=".toList "</function>".toList cs.length cs
  if found.isEmpty then none
  else
    let tool_calls := found.map (fun m =>
      ToolCall.mk m.1 (buildParams
        (findTagMatches "<parameter=".toList "</parameter>".toList m.2.length m.2)))
    if tool_calls.isEmpty then none else some tool_calls

/-- `_ALLOWED_TOOLS` from `sub_agent.py` line 65. -/
def ALLOWED_TOOLS : List String := ["retrieve_documents", "query_documents_metadata"]

/-- `_parse_sub_agent_tool_calls(content)` from `sub_agent.py` lines 76-94:
the same scan, but matches whose name is outside the allowlist are skipped
before any call is built. -/
def _parse_sub_agent_tool_calls (content : String) : Option (List ToolCall) :=
  let cs := content.toList
  let found := findTagMatches "<function=".toList "</function>".toList cs.length cs
  if found.isEmpty then none
  else
    let tool_calls := (found.filter (fun m => m.1 ∈ ALLOWED_TOOLS)).map (fun m =>
      ToolCall.mk m.1 (buildParams
        (findTagMatches "<parameter=".toList "</parameter>".toList m.2.length m.2)))
    if tool_calls.isEmpty then none else some tool_calls

/-! Orchestration loops: `stream_chat_completion` (`llm.py` lines 321-448)
and `run_sub_agent` (`sub_agent.py` lines 122-205).  The chat model is a
capability parameter mapping the accumulated message list to the response
of one `client.chat.completions.create` call; tool execution is a
capability parameter giving the stringified tool result.  A model
behaviour is a sequence of well-formed API responses; exceptions of the
network or tool layer are outside these claims. -/

/-- A native structured tool call with decoded arguments. -/
structure ToolCallNative where
  call_id : String
  name : String
  arguments : List (String × String)
deriving DecidableEq, Repr

/-- One non-streaming chat completion response. -/
structure ModelResponse where
  finish_reason : String
  content : String
  tool_calls : List ToolCallNative
deriving DecidableEq, Repr

/-- A conversation message.  For the assistant message that carries native
tool calls, the dumped call list does not affect the properties proved
here and is represented by the message content. -/
structure Message where
  role : String
  content : String
deriving DecidableEq, Repr

/-- `SYSTEM_PROMPT_WITH_TOOLS` from `llm.py` lines 24-43. -/
def SYSTEM_PROMPT_WITH_TOOLS : String :=
  "You are a helpful assistant with access to tools.\n\n" ++
  "Available capabilities:\n" ++
  "1. **retrieve_documents** — Search the user\x27s uploaded documents for relevant content. " ++
  "Use this when the user asks about information that might be in their documents.\n" ++
  "2. **query_documents_metadata** — Query structured metadata about the user\x27s documents " ++
  "(counts, file types, topics, dates, etc.). Use this for questions like \x27how many documents do I have?\x27, " ++
  "\x27what topics are covered?\x27, \x27list my PDF files\x27.\n" ++
  "3. **web_search** — Search the web for current information. Use this when the user asks about " ++
  "topics not likely in their documents, or asks for up-to-date information, news, or general knowledge.\n" ++
  "4. **deep_analysis** — Perform thorough, multi-pass analysis of the user\x27s documents. " ++
  "Use this when asked for comprehensive analysis, detailed summaries, or deep investigation " ++
  "across documents. Prefer this over retrieve_documents when thoroughness is important.\n" ++
  "5. **graph_search** — Query the knowledge graph built from the user\x27s documents. " ++
  "Use mode=\x27global\x27 for questions about main themes, topics, or a high-level overview of all documents. " ++
  "Use mode=\x27relationship\x27 with entity_a and entity_b to explain how two specific entities are connected.\n\n" ++
  "Choose the most appropriate tool for each query. You may use multiple tools if needed. " ++
  "When citing information from documents, mention it came from their uploaded documents. " ++
  "When citing web results, mention the source."

/-- `MAX_TOOL_ROUNDS` from `llm.py` line 321. -/
def MAX_TOOL_ROUNDS : ℕ := 3

/-- How a chat turn produced its answer: content yielded inside the tool
loop (terminal no-tool-call round), or the unconditional final streaming
call after the loop. -/
inductive ChatOutcome
  | earlyContent (content : String)
  | finalStream
deriving DecidableEq, Repr

/-- Observable shape of one `stream_chat_completion` run with tools:
number of tool-loop rounds executed (model calls offering the catalog),
accumulated messages, and the outcome. -/
structure ChatRun where
  rounds : ℕ
  messages : List Message
  outcome : ChatOutcome
deriving DecidableEq, Repr

/-- Tool-result messages of one native round (`llm.py` lines 406-433),
executed sequentially in call order. -/
def processNativeChatCalls (execTool : String → List (String × String) → String)
    (tcs : List ToolCallNative) : List Message :=
  tcs.map (fun tc => ⟨"tool", execTool tc.name tc.arguments⟩)

/-- User-role pseudo tool-result messages of one text-parsed round
(`llm.py` line 392 / `sub_agent.py` line 161). -/
def textCallMessages (execTool : String → List (String × String) → String)
    (tcs : List ToolCall) : List Message :=
  tcs.map (fun tc =>
    ⟨"user", "[Tool result for " ++ tc.name ++ "]: " ++ execTool tc.name tc.arguments⟩)

/-- The `for round_num in range(MAX_TOOL_ROUNDS)` loop of
`stream_chat_completion` (`llm.py` lines 362-448).  `fuel` is the number
of remaining rounds; at zero the loop has been exhausted and the
unconditional final streaming call is issued. -/
def chatToolLoop (model : List Message → ModelResponse)
    (execTool : String → List (String × String) → String) :
    List Message → ℕ → ℕ → ChatRun
  | msgs, rounds, 0 => ⟨rounds, msgs, ChatOutcome.finalStream⟩
  | msgs, rounds, fuel + 1 =>
    let resp := model msgs
    if resp.finish_reason ≠ "tool_calls" ∨ resp.tool_calls = [] then
      match _parse_text_tool_calls resp.content with
      | some tcs =>
        chatToolLoop model execTool
          (msgs ++ ⟨"assistant", resp.content⟩ :: textCallMessages execTool tcs)
          (rounds + 1) fuel
      | none => ⟨rounds + 1, msgs, ChatOutcome.earlyContent resp.content⟩
    else
      chatToolLoop model execTool
        (msgs ++ ⟨"assistant", resp.content⟩ :: processNativeChatCalls execTool resp.tool_calls)
        (rounds + 1) fuel

/-- `stream_chat_completion` with tools enabled (`llm.py` lines 321-448):
prepends the tool-aware system prompt and runs the tool loop. -/
def stream_chat_completion (model : List Message → ModelResponse)
    (execTool : String → List (String × String) → String)
    (messages : List Message) : ChatRun :=
  chatToolLoop model execTool
    (⟨"system", SYSTEM_PROMPT_WITH_TOOLS⟩ :: messages) 0 MAX_TOOL_ROUNDS

/-- `SUB_AGENT_SYSTEM_PROMPT` from `sub_agent.py` lines 12-25. -/
def SUB_AGENT_SYSTEM_PROMPT : String :=
  "You are a thorough document analyst. Your job is to deeply analyze the user\x27s " ++
  "documents to answer their query comprehensively.\n\n" ++
  "Strategy:\n" ++
  "1. Start with a broad retrieval to understand what\x27s available\n" ++
  "2. Do follow-up retrievals with refined queries to fill gaps\n" ++
  "3. Use metadata queries to understand document structure if needed\n" ++
  "4. Synthesize all findings into a comprehensive answer\n\n" ++
  "You have these tools:\n" ++
  "- retrieve_documents(query) — search document content\n" ++
  "- query_documents_metadata(question) — query document metadata\n\n" ++
  "Do multiple rounds of retrieval with different queries to ensure thorough coverage. " ++
  "When you have enough information, provide your final synthesis."

/-- `MAX_SUB_AGENT_ROUNDS` from `sub_agent.py` line 116. -/
def MAX_SUB_AGENT_ROUNDS : ℕ := 5

/-- Observable shape of one `run_sub_agent` run: the final answer string,
the accumulated messages, and the trace of every tool name passed to
`_execute_sub_agent_tool`. -/
structure SubAgentRun where
  answer : String
  messages : List Message
  executed : List String
deriving DecidableEq, Repr

/-- Native tool-call handling of one sub-agent round (`sub_agent.py` lines
174-190): allowlisted names are executed (recorded in the trace) with a
tool-result message; any other name receives a "not available" tool
message and its handler never runs. -/
def processNativeSubAgentCalls (execTool : String → List (String × String) → String) :
    List ToolCallNative → List Message × List String
  | [] => ([], [])
  | tc :: tcs =>
    let rest := processNativeSubAgentCalls execTool tcs
    if tc.name ∈ ALLOWED_TOOLS then
      (⟨"tool", execTool tc.name tc.arguments⟩ :: rest.1, tc.name :: rest.2)
    else
      (⟨"tool", "Tool \x27" ++ tc.name ++ "\x27 is not available."⟩ :: rest.1, rest.2)

/-- The `for round_num in range(MAX_SUB_AGENT_ROUNDS)` loop of
`run_sub_agent` (`sub_agent.py` lines 142-205), with the final synthesis
request issued after the cap. -/
def subAgentLoop (model : List Message → ModelResponse)
    (execTool : String → List (String × String) → String) :
    List Message → List String → ℕ → SubAgentRun
  | msgs, ex, 0 =>
    let msgs1 := msgs ++
      [⟨"user", "Please synthesize all the information you\x27ve gathered into a comprehensive final answer."⟩]
    ⟨(model msgs1).content, msgs1, ex⟩
  | msgs, ex, fuel + 1 =>
    let resp := model msgs
    if resp.finish_reason ≠ "tool_calls" ∨ resp.tool_calls = [] then
      match _parse_sub_agent_tool_calls resp.content with
      | some tcs =>
        subAgentLoop model execTool
          (msgs ++ ⟨"assistant", resp.content⟩ :: textCallMessages execTool tcs)
          (ex ++ tcs.map ToolCall.name) fuel
      | none => ⟨resp.content, msgs, ex⟩
    else
      let pr := processNativeSubAgentCalls execTool resp.tool_calls
      subAgentLoop model execTool (msgs ++ ⟨"assistant", resp.content⟩ :: pr.1)
        (ex ++ pr.2) fuel

/-- `run_sub_agent(query, retrieve_fn, user_token, focus_areas)` from
`sub_agent.py` lines 122-205, without the status callback (which only
emits fixed phase labels). -/
def run_sub_agent (model : List Message → ModelResponse)
    (execTool : String → List (String × String) → String)
    (query : String) (focus_areas : Option (List String)) : SubAgentRun :=
  let user_msg := "Analyze the following query thoroughly: " ++ query ++
    (match focus_areas with
     | some fa => "\n\nFocus areas: " ++ String.intercalate ", " fa
     | none => "")
  subAgentLoop model execTool
    [⟨"system", SUB_AGENT_SYSTEM_PROMPT⟩, ⟨"user", user_msg⟩] [] MAX_SUB_AGENT_ROUNDS

/-! ### Properties of `addContribution` -/

theorem lookupEntry_nil (cid : String) : lookupEntry [] cid = none := rfl

theorem lookupEntry_cons (cid' : String) (c0 : Chunk) (v0 : ℚ)
    (l : List (String × Chunk × ℚ)) (cid : String) :
    lookupEntry ((cid', c0, v0) :: l) cid =
      if cid' = cid then some (c0, v0) else lookupEntry l cid := by
  by_cases h : cid' = cid
  · simp [lookupEntry, List.find?_cons_of_pos, h]
  · simp [lookupEntry, List.find?_cons_of_neg, h]

theorem lookupEntry_addContribution_self (acc : List (String × Chunk × ℚ)) (c : Chunk) (v : ℚ) :
    lookupEntry (addContribution acc c v) c.id =
      match lookupEntry acc c.id with
      | none => some (c, v)
      | some (c0, v0) => some (c0, v0 + v) := by
  induction acc with
  | nil => simp [addContribution, lookupEntry]
  | cons e rest ih =>
    obtain ⟨cid, c0, v0⟩ := e
    by_cases h : cid = c.id
    · subst h
      simp [addContribution, lookupEntry_cons]
    · simp only [addContribution, if_neg h, lookupEntry_cons, if_neg h]
      exact ih

theorem lookupEntry_addContribution_ne (acc : List (String × Chunk × ℚ)) (c : Chunk) (v : ℚ)
    (cid : String) (h : cid ≠ c.id) :
    lookupEntry (addContribution acc c v) cid = lookupEntry acc cid := by
  induction acc with
  | nil => simp [addContribution, lookupEntry_cons, if_neg (Ne.symm h), lookupEntry_nil]
  | cons e rest ih =>
    obtain ⟨cid', c0, v0⟩ := e
    by_cases h' : cid' = c.id
    · subst h'
      simp [addContribution, lookupEntry_cons, Ne.symm h]
    · simp only [addContribution, if_neg h', lookupEntry_cons]
      by_cases h2 : cid' = cid
      · simp only [if_pos h2]
      · simp only [if_neg h2]
        exact ih

theorem keys_addContribution (acc : List (String × Chunk × ℚ)) (c : Chunk) (v : ℚ) :
    (addContribution acc c v).map Prod.fst =
      if c.id ∈ acc.map Prod.fst then acc.map Prod.fst else acc.map Prod.fst ++ [c.id] := by
  induction acc with
  | nil => simp [addContribution]
  | cons e rest ih =>
    obtain ⟨cid, c0, v0⟩ := e
    by_cases h : cid = c.id
    · subst h; simp [addContribution]
    · simp only [addContribution, if_neg h, List.map_cons, List.mem_cons]
      rw [ih]
      by_cases h2 : c.id ∈ rest.map Prod.fst
      · rw [if_pos h2, if_pos (Or.inr h2)]
      · rw [if_neg h2, if_neg (by rintro (h3 | h3); exact h h3.symm; exact h2 h3)]
        simp

theorem addContribution_of_not_mem (acc : List (String × Chunk × ℚ)) (c : Chunk) (v : ℚ)
    (h : c.id ∉ acc.map Prod.fst) :
    addContribution acc c v = acc ++ [(c.id, c, v)] := by
  induction acc with
  | nil => simp [addContribution]
  | cons e rest ih =>
    obtain ⟨cid, c0, v0⟩ := e
    simp only [List.map_cons, List.mem_cons] at h
    push_neg at h
    have hne : ¬cid = c.id := fun hc => h.1 hc.symm
    simp only [addContribution, if_neg hne, List.cons_append, List.cons.injEq, true_and]
    exact ih h.2

theorem addContribution_append_left (pre rest : List (String × Chunk × ℚ)) (c : Chunk) (v : ℚ)
    (h : c.id ∉ pre.map Prod.fst) :
    addContribution (pre ++ rest) c v = pre ++ addContribution rest c v := by
  induction pre with
  | nil => simp
  | cons e pre' ih =>
    obtain ⟨cid, c0, v0⟩ := e
    simp only [List.map_cons, List.mem_cons] at h
    push_neg at h
    have hne : ¬cid = c.id := fun hc => h.1 hc.symm
    simp only [List.cons_append, addContribution, if_neg hne, List.cons.injEq, true_and]
    exact ih h.2

theorem entryKey_addContribution (acc : List (String × Chunk × ℚ)) (c : Chunk) (v : ℚ)
    (h : ∀ e ∈ acc, e.1 = e.2.1.id) :
    ∀ e ∈ addContribution acc c v, e.1 = e.2.1.id := by
  induction acc with
  | nil => simp [addContribution]
  | cons e0 rest ih =>
    obtain ⟨cid, c0, v0⟩ := e0
    have h0 := h _ (List.mem_cons_self _ _)
    have hrest : ∀ e ∈ rest, e.1 = e.2.1.id := fun e he => h e (List.mem_cons_of_mem _ he)
    by_cases hc : cid = c.id
    · subst hc
      simp only [addContribution, if_pos rfl]
      intro e he
      rcases List.mem_cons.mp he with he | he
      · subst he; exact h0
      · exact hrest e he
    · simp only [addContribution, if_neg hc]
      intro e he
      rcases List.mem_cons.mp he with he | he
      · subst he; exact h0
      · exact ih hrest e he

/-! ### Properties of `processList` and the fused entry map -/

theorem listScore_eq_zero (k : ℕ) (cid : String) (rank : ℕ) (rs : List Chunk)
    (h : rs.find? (fun c => c.id = cid) = none) :
    listScore k cid rank rs = 0 := by
  induction rs generalizing rank with
  | nil => rfl
  | cons c cs ih =>
    by_cases hc : c.id = cid
    · rw [List.find?_cons_of_pos _ (by simp [hc])] at h
      exact absurd h (by simp)
    · rw [List.find?_cons_of_neg _ (by simp [hc])] at h
      simp [listScore, if_neg hc, ih (rank + 1) h]

theorem lookupEntry_processList (k : ℕ) (cid : String) (rs : List Chunk)
    (acc : List (String × Chunk × ℚ)) (rank : ℕ) :
    lookupEntry (processList k acc rank rs) cid =
      match lookupEntry acc cid with
      | some (c0, v0) => some (c0, v0 + listScore k cid rank rs)
      | none => (rs.find? (fun c => c.id = cid)).map
          (fun c => (c, listScore k cid rank rs)) := by
  induction rs generalizing acc rank with
  | nil =>
    cases hl : lookupEntry acc cid with
    | none => simp [processList, hl]
    | some p => obtain ⟨c0, v0⟩ := p; simp [processList, hl, listScore]
  | cons c cs ih =>
    simp only [processList]
    rw [ih]
    by_cases hc : c.id = cid
    · subst hc
      have hfindc : (c :: cs).find? (fun x => x.id = c.id) = some c :=
        List.find?_cons_of_pos _ (by simp)
      rw [lookupEntry_addContribution_self, hfindc]
      cases hl : lookupEntry acc c.id with
      | none => simp [listScore]
      | some p =>
        obtain ⟨c0, v0⟩ := p
        simp [listScore]
        try ring
    · have hfindc : (c :: cs).find? (fun x => x.id = cid) = cs.find? (fun x => x.id = cid) :=
        List.find?_cons_of_neg _ (by simp [hc])
      rw [lookupEntry_addContribution_ne _ _ _ _ (fun h => hc h.symm), hfindc]
      cases hl : lookupEntry acc cid with
      | none =>
        cases hfind : cs.find? (fun x => x.id = cid) with
        | none => simp [hfind]
        | some c1 => simp [hfind, listScore, if_neg hc]
      | some p =>
        obtain ⟨c0, v0⟩ := p
        simp [listScore, if_neg hc]

theorem nodupKeys_addContribution (acc : List (String × Chunk × ℚ)) (c : Chunk) (v : ℚ)
    (h : (acc.map Prod.fst).Nodup) : ((addContribution acc c v).map Prod.fst).Nodup := by
  rw [keys_addContribution]
  by_cases hm : c.id ∈ acc.map Prod.fst
  · rwa [if_pos hm]
  · rw [if_neg hm]
    simp [List.nodup_append, h, hm]

theorem nodupKeys_processList (k : ℕ) (rs : List Chunk) (acc : List (String × Chunk × ℚ))
    (rank : ℕ) (h : (acc.map Prod.fst).Nodup) :
    ((processList k acc rank rs).map Prod.fst).Nodup := by
  induction rs generalizing acc rank with
  | nil => exact h
  | cons c cs ih => exact ih _ _ (nodupKeys_addContribution _ _ _ h)

theorem nodupKeys_foldl (lists : List (List Chunk)) (k : ℕ) (acc : List (String × Chunk × ℚ))
    (h : (acc.map Prod.fst).Nodup) :
    ((lists.foldl (fun a rs => processList k a 0 rs) acc).map Prod.fst).Nodup := by
  induction lists generalizing acc with
  | nil => exact h
  | cons rs rest ih => exact ih _ (nodupKeys_processList _ _ _ _ h)

theorem entryKey_processList (k : ℕ) (rs : List Chunk) (acc : List (String × Chunk × ℚ))
    (rank : ℕ) (h : ∀ e ∈ acc, e.1 = e.2.1.id) :
    ∀ e ∈ processList k acc rank rs, e.1 = e.2.1.id := by
  induction rs generalizing acc rank with
  | nil => exact h
  | cons c cs ih => exact ih _ _ (entryKey_addContribution _ _ _ h)

theorem entryKey_foldl (lists : List (List Chunk)) (k : ℕ) (acc : List (String × Chunk × ℚ))
    (h : ∀ e ∈ acc, e.1 = e.2.1.id) :
    ∀ e ∈ lists.foldl (fun a rs => processList k a 0 rs) acc, e.1 = e.2.1.id := by
  induction lists generalizing acc with
  | nil => exact h
  | cons rs rest ih => exact ih _ (entryKey_processList _ _ _ _ h)

theorem chunkScore_cons (rs : List Chunk) (rest : List (List Chunk)) (k : ℕ) (cid : String) :
    chunkScore (rs :: rest) k cid = listScore k cid 0 rs + chunkScore rest k cid := by
  simp [chunkScore]

theorem firstChunk_cons (rs : List Chunk) (rest : List (List Chunk)) (cid : String) :
    firstChunk (rs :: rest) cid =
      (rs.find? (fun c => c.id = cid)).or (firstChunk rest cid) := by
  simp [firstChunk]

theorem lookupEntry_foldl (lists : List (List Chunk)) (k : ℕ) (cid : String)
    (acc : List (String × Chunk × ℚ)) :
    lookupEntry (lists.foldl (fun a rs => processList k a 0 rs) acc) cid =
      match lookupEntry acc cid with
      | some (c0, v0) => some (c0, v0 + chunkScore lists k cid)
      | none => (firstChunk lists cid).map (fun c => (c, chunkScore lists k cid)) := by
  induction lists generalizing acc with
  | nil =>
    cases hl : lookupEntry acc cid with
    | none => simp [firstChunk, hl]
    | some p => obtain ⟨c0, v0⟩ := p; simp [chunkScore, hl]
  | cons rs rest ih =>
    simp only [List.foldl_cons]
    rw [ih, lookupEntry_processList]
    cases hl : lookupEntry acc cid with
    | some p =>
      obtain ⟨c0, v0⟩ := p
      simp [chunkScore_cons, add_assoc]
    | none =>
      cases hfind : rs.find? (fun c => c.id = cid) with
      | some c1 =>
        simp [firstChunk_cons, hfind, chunkScore_cons]
      | none =>
        have h0 : listScore k cid 0 rs = 0 := listScore_eq_zero k cid 0 rs hfind
        cases hfc : firstChunk rest cid with
        | none => simp [firstChunk_cons, hfind, hfc]
        | some c2 => simp [firstChunk_cons, hfind, hfc, chunkScore_cons, h0]

theorem lookupEntry_of_mem (l : List (String × Chunk × ℚ)) (e : String × Chunk × ℚ)
    (he : e ∈ l) (h : (l.map Prod.fst).Nodup) : lookupEntry l e.1 = some e.2 := by
  induction l with
  | nil => cases he
  | cons e0 rest ih =>
    obtain ⟨cid0, c0, v0⟩ := e0
    rw [List.map_cons, List.nodup_cons] at h
    rcases List.mem_cons.mp he with rfl | hmem
    · simp [lookupEntry_cons]
    · have h2 : e.1 ∈ rest.map Prod.fst := List.mem_map_of_mem _ hmem
      have hne : ¬cid0 = e.1 := fun hc => h.1 (by rw [hc]; exact h2)
      rw [lookupEntry_cons, if_neg hne]
      exact ih hmem h.2

/-! ### Properties of the stable descending sort -/

theorem insertDesc_perm {α : Type} (score : α → ℚ) (x : α) (l : List α) :
    List.Perm (insertDesc score x l) (x :: l) := by
  induction l with
  | nil => rfl
  | cons y ys ih =>
    by_cases h : score y ≤ score x
    · simp [insertDesc, if_pos h]
    · simp only [insertDesc, if_neg h]
      exact (ih.cons y).trans (List.Perm.swap x y ys)

theorem sortDesc_perm {α : Type} (score : α → ℚ) (l : List α) : List.Perm (sortDesc score l) l := by
  induction l with
  | nil => rfl
  | cons x xs ih => exact (insertDesc_perm score x (sortDesc score xs)).trans (ih.cons x)

theorem mem_insertDesc {α : Type} (score : α → ℚ) (x : α) (l : List α) (y : α) :
    y ∈ insertDesc score x l ↔ y = x ∨ y ∈ l := by
  rw [(insertDesc_perm score x l).mem_iff]
  simp

theorem pairwise_insertDesc {α : Type} (score : α → ℚ) (x : α) (l : List α)
    (h : l.Pairwise (fun a b => score b ≤ score a)) :
    (insertDesc score x l).Pairwise (fun a b => score b ≤ score a) := by
  induction l with
  | nil => simp [insertDesc]
  | cons y ys ih =>
    rw [List.pairwise_cons] at h
    by_cases hxy : score y ≤ score x
    · simp only [insertDesc, if_pos hxy]
      refine List.Pairwise.cons ?_ (List.Pairwise.cons h.1 h.2)
      intro z hz
      rcases List.mem_cons.mp hz with rfl | hz
      · exact hxy
      · exact le_trans (h.1 z hz) hxy
    · simp only [insertDesc, if_neg hxy]
      refine List.Pairwise.cons ?_ (ih h.2)
      intro z hz
      rcases (mem_insertDesc score x ys z).mp hz with rfl | hz
      · exact le_of_lt (not_le.mp hxy)
      · exact h.1 z hz

theorem sortDesc_sorted {α : Type} (score : α → ℚ) (l : List α) :
    (sortDesc score l).Pairwise (fun a b => score b ≤ score a) := by
  induction l with
  | nil => exact List.Pairwise.nil
  | cons x xs ih => exact pairwise_insertDesc score x _ ih

theorem sortDesc_eq_self {α : Type} (score : α → ℚ) (l : List α)
    (h : l.Pairwise (fun a b => score b ≤ score a)) : sortDesc score l = l := by
  induction l with
  | nil => rfl
  | cons x xs ih =>
    rw [List.pairwise_cons] at h
    simp only [sortDesc, ih h.2]
    cases xs with
    | nil => rfl
    | cons y ys =>
      simp only [insertDesc, if_pos (h.1 y (List.mem_cons_self y ys))]

/-! ### Fusion of lists with pairwise-distinct ids -/

theorem processList_fresh (k : ℕ) (L : List Chunk) (acc : List (String × Chunk × ℚ))
    (rank : ℕ) (hnd : (L.map Chunk.id).Nodup)
    (hdisj : ∀ x ∈ L.map Chunk.id, x ∉ acc.map Prod.fst) :
    processList k acc rank L = acc ++ rankEntries (fun r => 1 / ((k : ℚ) + r + 1)) rank L := by
  induction L generalizing acc rank with
  | nil => simp [processList, rankEntries]
  | cons c cs ih =>
    rw [List.map_cons, List.nodup_cons] at hnd
    have hcacc : c.id ∉ acc.map Prod.fst := hdisj c.id (by simp)
    simp only [processList, rankEntries]
    rw [addContribution_of_not_mem _ _ _ hcacc]
    rw [ih _ _ hnd.2]
    · simp
    · intro x hx
      simp only [List.map_append, List.map_cons, List.map_nil, List.mem_append,
        List.mem_singleton]
      push_neg
      refine ⟨hdisj x (by rw [List.map_cons]; exact List.mem_cons_of_mem _ hx), ?_⟩
      intro hxc
      exact hnd.1 (hxc ▸ hx)

theorem processList_second (k : ℕ) (f : ℕ → ℚ) (L : List Chunk)
    (pre : List (String × Chunk × ℚ)) (rank : ℕ) (hnd : (L.map Chunk.id).Nodup)
    (hdisj : ∀ x ∈ L.map Chunk.id, x ∉ pre.map Prod.fst) :
    processList k (pre ++ rankEntries f rank L) rank L =
      pre ++ rankEntries (fun r => f r + 1 / ((k : ℚ) + r + 1)) rank L := by
  induction L generalizing pre rank with
  | nil => simp [processList, rankEntries]
  | cons c cs ih =>
    rw [List.map_cons, List.nodup_cons] at hnd
    have hcpre : c.id ∉ pre.map Prod.fst := hdisj c.id (by simp)
    simp only [processList, rankEntries]
    rw [addContribution_append_left _ _ _ _ hcpre]
    have hhead : addContribution ((c.id, c, f rank) :: rankEntries f (rank + 1) cs) c
        (1 / ((k : ℚ) + rank + 1)) =
        (c.id, c, f rank + 1 / ((k : ℚ) + rank + 1)) :: rankEntries f (rank + 1) cs := by
      simp [addContribution]
    rw [hhead]
    have hre : pre ++ (c.id, c, f rank + 1 / ((k : ℚ) + rank + 1)) ::
        rankEntries f (rank + 1) cs =
        (pre ++ [(c.id, c, f rank + 1 / ((k : ℚ) + rank + 1))]) ++
          rankEntries f (rank + 1) cs := by
      simp
    rw [hre, ih _ _ hnd.2]
    · simp
    · intro x hx
      simp only [List.map_append, List.map_cons, List.map_nil, List.mem_append,
        List.mem_singleton]
      push_neg
      refine ⟨hdisj x (by rw [List.map_cons]; exact List.mem_cons_of_mem _ hx), ?_⟩
      intro hxc
      exact hnd.1 (hxc ▸ hx)

theorem map_rankEntries (f : ℕ → ℚ) (rank : ℕ) (L : List Chunk) :
    (rankEntries f rank L).map (fun e => (e.2.1, e.2.2)) = rankPairs f rank L := by
  induction L generalizing rank with
  | nil => rfl
  | cons c cs ih => simp [rankEntries, rankPairs, ih]

theorem map_fst_rankPairs (f : ℕ → ℚ) (rank : ℕ) (L : List Chunk) :
    (rankPairs f rank L).map Prod.fst = L := by
  induction L generalizing rank with
  | nil => rfl
  | cons c cs ih => simp [rankPairs, ih]

theorem mem_rankPairs_score (f : ℕ → ℚ) (rank : ℕ) (L : List Chunk)
    (x : Chunk × ℚ) (hx : x ∈ rankPairs f rank L) : ∃ r, rank ≤ r ∧ x.2 = f r := by
  induction L generalizing rank with
  | nil => cases hx
  | cons c cs ih =>
    rcases List.mem_cons.mp hx with rfl | hx
    · exact ⟨rank, le_refl _, rfl⟩
    · obtain ⟨r, hr, he⟩ := ih (rank + 1) hx
      exact ⟨r, le_trans (Nat.le_succ _) hr, he⟩

theorem pairwise_rankPairs (f : ℕ → ℚ) (hf : ∀ r s, r < s → f s < f r) (rank : ℕ)
    (L : List Chunk) : (rankPairs f rank L).Pairwise (fun a b => b.2 < a.2) := by
  induction L generalizing rank with
  | nil => exact List.Pairwise.nil
  | cons c cs ih =>
    refine List.Pairwise.cons ?_ (ih (rank + 1))
    intro y hy
    obtain ⟨r, hr, he⟩ := mem_rankPairs_score f (rank + 1) cs y hy
    rw [he]
    exact hf rank r (Nat.lt_of_lt_of_le (Nat.lt_succ_self rank) hr)

theorem singleScore_strictAnti (k : ℕ) :
    ∀ r s : ℕ, r < s → 1 / ((k : ℚ) + s + 1) < 1 / ((k : ℚ) + r + 1) := by
  intro r s hrs
  have h1 : (0 : ℚ) < (k : ℚ) + r + 1 := by
    have hk : (0 : ℚ) ≤ (k : ℚ) := Nat.cast_nonneg k
    have hr : (0 : ℚ) ≤ (r : ℚ) := Nat.cast_nonneg r
    linarith
  have h2 : (k : ℚ) + r + 1 < (k : ℚ) + s + 1 := by
    have : (r : ℚ) < (s : ℚ) := by exact_mod_cast hrs
    linarith
  exact one_div_lt_one_div_of_lt h1 h2

/-! ### Characterisation of `reciprocal_rank_fusion` -/

theorem rrf_mem_score (lists : List (List Chunk)) (k : ℕ) (c : Chunk) (q : ℚ)
    (h : (c, q) ∈ reciprocal_rank_fusion lists k) :
    firstChunk lists c.id = some c ∧ q = chunkScore lists k c.id := by
  set entries := lists.foldl (fun acc results => processList k acc 0 results) [] with hentries
  have hperm := sortDesc_perm (Prod.snd (α := Chunk))
      (entries.map (fun e => (e.2.1, e.2.2)))
  have hmem : (c, q) ∈ entries.map (fun e => (e.2.1, e.2.2)) := by
    rw [← hperm.mem_iff]
    exact h
  obtain ⟨e, he, heq⟩ := List.mem_map.mp hmem
  have hkey : e.1 = e.2.1.id := entryKey_foldl lists k [] (by simp) e he
  have hnd : (entries.map Prod.fst).Nodup := nodupKeys_foldl lists k [] (by simp)
  have hlk : lookupEntry entries e.1 = some e.2 := lookupEntry_of_mem entries e he hnd
  have hfold := lookupEntry_foldl lists k e.1 []
  rw [lookupEntry_nil] at hfold
  rw [← hentries] at hfold
  rw [hlk] at hfold
  have hc : e.2.1 = c := congrArg Prod.fst heq
  have hq : e.2.2 = q := congrArg Prod.snd heq
  cases hfc : firstChunk lists e.1 with
  | none => rw [hfc] at hfold; simp at hfold
  | some c1 =>
    rw [hfc] at hfold
    have hfold2 : e.2 = (c1, chunkScore lists k e.1) := by simpa using hfold
    have h1 : e.2.1 = c1 := congrArg Prod.fst hfold2
    have h2 : e.2.2 = chunkScore lists k e.1 := congrArg Prod.snd hfold2
    have hcc1 : c1 = c := h1 ▸ hc
    have hid : e.1 = c.id := by rw [hkey, hc]
    constructor
    · rw [← hid, hfc, hcc1]
    · rw [← hq, h2, hid]

theorem countP_key_le_one (l : List (String × Chunk × ℚ)) (cid : String)
    (h : (l.map Prod.fst).Nodup) :
    l.countP (fun e => decide (e.1 = cid)) ≤ 1 := by
  induction l with
  | nil => simp
  | cons e l ih =>
    rw [List.map_cons, List.nodup_cons] at h
    rw [List.countP_cons]
    by_cases hc : e.1 = cid
    · have hz : l.countP (fun e => decide (e.1 = cid)) = 0 := by
        rw [List.countP_eq_zero]
        intro a ha
        simp only [decide_eq_true_eq]
        intro hac
        exact h.1 (by rw [hc, ← hac]; exact List.mem_map_of_mem _ ha)
      simp [hz, hc]
    · simp [hc, ih h.2]

theorem rrf_countP_le_one (lists : List (List Chunk)) (k : ℕ) (cid : String) :
    (reciprocal_rank_fusion lists k).countP (fun e => decide (e.1.id = cid)) ≤ 1 := by
  set entries := lists.foldl (fun acc results => processList k acc 0 results) [] with hentries
  have hperm := sortDesc_perm (Prod.snd (α := Chunk))
      (entries.map (fun e => (e.2.1, e.2.2)))
  rw [show reciprocal_rank_fusion lists k =
      sortDesc Prod.snd (entries.map (fun e => (e.2.1, e.2.2))) from rfl]
  rw [hperm.countP_eq]
  rw [List.countP_map]
  have hkey : ∀ e ∈ entries, e.1 = e.2.1.id := entryKey_foldl lists k [] (by simp)
  have hnd : (entries.map Prod.fst).Nodup := nodupKeys_foldl lists k [] (by simp)
  calc entries.countP ((fun e => decide (e.1.id = cid)) ∘ (fun e => (e.2.1, e.2.2)))
      = entries.countP (fun e => decide (e.1 = cid)) := by
        apply List.countP_congr
        intro e he
        simp only [Function.comp_apply]
        rw [hkey e he]
    _ ≤ 1 := countP_key_le_one entries cid hnd

theorem rrf_countP_eq_one (lists : List (List Chunk)) (k : ℕ) (cid : String) (c : Chunk)
    (hc : c ∈ lists.flatten) (hcid : c.id = cid) :
    (reciprocal_rank_fusion lists k).countP (fun e => decide (e.1.id = cid)) = 1 := by
  refine le_antisymm (rrf_countP_le_one lists k cid) ?_
  have hfc : (firstChunk lists cid).isSome := by
    rw [firstChunk, List.find?_isSome]
    exact ⟨c, hc, by simp [hcid]⟩
  obtain ⟨c1, hc1⟩ := Option.isSome_iff_exists.mp hfc
  set entries := lists.foldl (fun acc results => processList k acc 0 results) [] with hentries
  have hfold := lookupEntry_foldl lists k cid []
  rw [lookupEntry_nil] at hfold
  rw [← hentries] at hfold
  rw [hc1] at hfold
  simp only [Option.map_some] at hfold
  obtain ⟨e, hfind⟩ : ∃ e, entries.find? (fun e => e.1 = cid) = some e := by
    cases hf : entries.find? (fun e => e.1 = cid) with
    | none => rw [lookupEntry, hf] at hfold; simp at hfold
    | some e => exact ⟨e, rfl⟩
  have hmem : e ∈ entries := List.mem_of_find?_eq_some hfind
  have hkeye : e.1 = cid := by
    have := List.find?_some hfind
    simpa using this
  have hkey : e.1 = e.2.1.id := entryKey_foldl lists k [] (by simp) e hmem
  have hperm := sortDesc_perm (Prod.snd (α := Chunk))
      (entries.map (fun e => (e.2.1, e.2.2)))
  rw [show reciprocal_rank_fusion lists k =
      sortDesc Prod.snd (entries.map (fun e => (e.2.1, e.2.2))) from rfl]
  rw [hperm.countP_eq, List.countP_map]
  rw [Nat.succ_le_iff, List.countP_pos_iff]
  exact ⟨e, hmem, by simp only [Function.comp_apply, decide_eq_true_eq]; rw [← hkey, hkeye]⟩

theorem rrf_single_eq (L : List Chunk) (k : ℕ) (hnd : (L.map Chunk.id).Nodup) :
    reciprocal_rank_fusion [L] k = rankPairs (fun r => 1 / ((k : ℚ) + r + 1)) 0 L := by
  have hentries : ([L] : List (List Chunk)).foldl (fun a rs => processList k a 0 rs) [] =
      rankEntries (fun r => 1 / ((k : ℚ) + r + 1)) 0 L := by
    simp only [List.foldl_cons, List.foldl_nil]
    rw [processList_fresh k L [] 0 hnd (by simp)]
    simp
  have hpw : (rankPairs (fun r => 1 / ((k : ℚ) + r + 1)) 0 L).Pairwise
      (fun a b => b.2 ≤ a.2) :=
    (pairwise_rankPairs _ (singleScore_strictAnti k) 0 L).imp le_of_lt
  rw [show reciprocal_rank_fusion [L] k =
      sortDesc Prod.snd ((([L] : List (List Chunk)).foldl
        (fun a rs => processList k a 0 rs) []).map (fun e => (e.2.1, e.2.2))) from rfl]
  rw [hentries, map_rankEntries]
  exact sortDesc_eq_self _ _ hpw

theorem rrf_double_eq (L : List Chunk) (k : ℕ) (hnd : (L.map Chunk.id).Nodup) :
    reciprocal_rank_fusion [L, L] k =
      rankPairs (fun r => 1 / ((k : ℚ) + r + 1) + 1 / ((k : ℚ) + r + 1)) 0 L := by
  have hentries : ([L, L] : List (List Chunk)).foldl (fun a rs => processList k a 0 rs) [] =
      rankEntries (fun r => 1 / ((k : ℚ) + r + 1) + 1 / ((k : ℚ) + r + 1)) 0 L := by
    simp only [List.foldl_cons, List.foldl_nil]
    rw [processList_fresh k L [] 0 hnd (by simp)]
    rw [show ([] : List (String × Chunk × ℚ)) ++
        rankEntries (fun r => 1 / ((k : ℚ) + r + 1)) 0 L =
        rankEntries (fun r => 1 / ((k : ℚ) + r + 1)) 0 L from by simp]
    have := processList_second k (fun r => 1 / ((k : ℚ) + r + 1)) L [] 0 hnd (by simp)
    simpa using this
  have hpw : (rankPairs (fun r => 1 / ((k : ℚ) + r + 1) + 1 / ((k : ℚ) + r + 1)) 0 L).Pairwise
      (fun a b => b.2 ≤ a.2) := by
    refine (pairwise_rankPairs _ ?_ 0 L).imp le_of_lt
    intro r s hrs
    have := singleScore_strictAnti k r s hrs
    linarith
  rw [show reciprocal_rank_fusion [L, L] k =
      sortDesc Prod.snd ((([L, L] : List (List Chunk)).foldl
        (fun a rs => processList k a 0 rs) []).map (fun e => (e.2.1, e.2.2))) from rfl]
  rw [hentries, map_rankEntries]
  exact sortDesc_eq_self _ _ hpw

/-! ### Claim theorems about reciprocal rank fusion -/

/-- C1.  For every list of ranked candidate lists and every `k`,
`reciprocal_rank_fusion` gives each output chunk the sum of its
`1 / (k + rank + 1)` contributions over all lists (summed per chunk id),
orders the output by total score descending, and on the spec's example
`[[a, b], [b, c]]` with `k = 60` produces scores `a = 1/61`,
`b = 1/61 + 1/62`, `c = 1/62` and output order `[b, a, c]`. -/
theorem rrf_scores_and_descending_order (result_lists : List (List Chunk)) (k : ℕ) :
    (∀ c q, (c, q) ∈ reciprocal_rank_fusion result_lists k →
        q = chunkScore result_lists k c.id) ∧
    (reciprocal_rank_fusion result_lists k).Pairwise (fun a b => b.2 ≤ a.2) ∧
    reciprocal_rank_fusion [[⟨"a", "A"⟩, ⟨"b", "B"⟩], [⟨"b", "B2"⟩, ⟨"c", "C"⟩]] 60 =
      [(⟨"b", "B"⟩, 1/61 + 1/62), (⟨"a", "A"⟩, 1/61), (⟨"c", "C"⟩, 1/62)] := by
  refine ⟨?_, ?_, ?_⟩
  · intro c q h
    exact (rrf_mem_score result_lists k c q h).2
  · exact sortDesc_sorted _ _
  · norm_num [reciprocal_rank_fusion, processList, addContribution, sortDesc, insertDesc]

/-- Witness for C1 at the spec's concrete example: chunk `b` is in the fused
output with score `1/61 + 1/62`, which equals its summed contributions. -/
theorem rrf_scores_and_descending_order_witness :
    (1/61 + 1/62 : ℚ) =
      chunkScore [[⟨"a", "A"⟩, ⟨"b", "B"⟩], [⟨"b", "B2"⟩, ⟨"c", "C"⟩]] 60
        (Chunk.id ⟨"b", "B"⟩) := by
  have h := rrf_scores_and_descending_order
      [[⟨"a", "A"⟩, ⟨"b", "B"⟩], [⟨"b", "B2"⟩, ⟨"c", "C"⟩]] 60
  exact h.1 ⟨"b", "B"⟩ (1/61 + 1/62) (by rw [h.2.2]; simp)

/-- C6.  Fusing a single list with pairwise-distinct ids returns the list in
its original order with strictly decreasing scores, and fusing `[L, L]`
likewise preserves `L`'s order with strictly decreasing scores. -/
theorem rrf_single_list_order (L : List Chunk) (k : ℕ)
    (hnd : (L.map Chunk.id).Nodup) :
    (reciprocal_rank_fusion [L] k).map Prod.fst = L ∧
    (reciprocal_rank_fusion [L] k).Pairwise (fun a b => b.2 < a.2) ∧
    (reciprocal_rank_fusion [L, L] k).map Prod.fst = L ∧
    (reciprocal_rank_fusion [L, L] k).Pairwise (fun a b => b.2 < a.2) := by
  refine ⟨?_, ?_, ?_, ?_⟩
  · rw [rrf_single_eq L k hnd]; exact map_fst_rankPairs _ 0 L
  · rw [rrf_single_eq L k hnd]
    exact pairwise_rankPairs _ (singleScore_strictAnti k) 0 L
  · rw [rrf_double_eq L k hnd]; exact map_fst_rankPairs _ 0 L
  · rw [rrf_double_eq L k hnd]
    refine pairwise_rankPairs _ ?_ 0 L
    intro r s hrs
    have := singleScore_strictAnti k r s hrs
    linarith

/-- Witness for C6 at a concrete two-element list with distinct ids. -/
theorem rrf_single_list_order_witness :
    ((([⟨"a", "x"⟩, ⟨"b", "y"⟩] : List Chunk).map Chunk.id).Nodup) ∧
    (reciprocal_rank_fusion [[⟨"a", "x"⟩, ⟨"b", "y"⟩]] 60).map Prod.fst =
      [⟨"a", "x"⟩, ⟨"b", "y"⟩] :=
  ⟨by decide, (rrf_single_list_order [⟨"a", "x"⟩, ⟨"b", "y"⟩] 60 (by decide)).1⟩

/-- C10.  Fusion keeps at most one output entry per chunk id (exactly one
when the id occurs), scores an id by one contribution per occurrence —
intra-list duplicates accumulate — and represents the id by the chunk object
of its first occurrence; concretely, fusing `[[a@A1, a@A2]]` with `k = 60`
yields the single entry `(a@A1, 1/61 + 1/62)`. -/
theorem rrf_duplicate_ids_accumulate (lists : List (List Chunk)) (k : ℕ) (cid : String) :
    ((reciprocal_rank_fusion lists k).countP (fun e => decide (e.1.id = cid)) ≤ 1) ∧
    (∀ c q, (c, q) ∈ reciprocal_rank_fusion lists k → c.id = cid →
        firstChunk lists cid = some c ∧ q = chunkScore lists k cid) ∧
    (∀ c, c ∈ lists.flatten → c.id = cid →
        (reciprocal_rank_fusion lists k).countP (fun e => decide (e.1.id = cid)) = 1) ∧
    reciprocal_rank_fusion [[⟨"a", "A1"⟩, ⟨"a", "A2"⟩]] 60 =
      [(⟨"a", "A1"⟩, 1/61 + 1/62)] := by
  refine ⟨rrf_countP_le_one lists k cid, ?_, ?_, ?_⟩
  · intro c q hmem hcid
    have h := rrf_mem_score lists k c q hmem
    rw [hcid] at h
    exact h
  · intro c hc hcid
    exact rrf_countP_eq_one lists k cid c hc hcid
  · norm_num [reciprocal_rank_fusion, processList, addContribution, sortDesc, insertDesc]

/-- Witness for C10 at the concrete duplicate-id example. -/
theorem rrf_duplicate_ids_accumulate_witness :
    firstChunk [[⟨"a", "A1"⟩, ⟨"a", "A2"⟩]] "a" = some ⟨"a", "A1"⟩ ∧
    (1/61 + 1/62 : ℚ) = chunkScore [[⟨"a", "A1"⟩, ⟨"a", "A2"⟩]] 60 "a" := by
  have h := rrf_duplicate_ids_accumulate [[⟨"a", "A1"⟩, ⟨"a", "A2"⟩]] 60 "a"
  exact h.2.1 ⟨"a", "A1"⟩ (1/61 + 1/62) (by rw [h.2.2.2]; simp) rfl

/-! ### Mutation behaviour of the object-level fusion (C7) -/

theorem map_proj_writeScore (h : List ChunkObj) (r : ℕ) (q : ℚ) :
    (writeScore h r q).map (fun c => (c.id, c.content)) =
      h.map (fun c => (c.id, c.content)) := by
  induction h generalizing r with
  | nil => rfl
  | cons c cs ih =>
    cases r with
    | zero => rfl
    | succ n => simp [writeScore, ih n]

theorem map_proj_writeScore_foldl (es : List (String × ℕ × ℚ)) (heap : List ChunkObj) :
    ((es.foldl (fun h e => writeScore h e.2.1 e.2.2) heap).map (fun c => (c.id, c.content))) =
      heap.map (fun c => (c.id, c.content)) := by
  induction es generalizing heap with
  | nil => rfl
  | cons e es ih => rw [List.foldl_cons, ih, map_proj_writeScore]

/-- C7 counterexample.  `reciprocal_rank_fusion` does mutate the chunk
objects contained in its input lists: fusing a single one-element list
writes the `rrf_score` key into that chunk dict, so the heap after the
call differs from the heap before it. -/
theorem rrf_store_mutates_input_chunk :
    (reciprocal_rank_fusion_store [⟨"a", "x", none⟩] [[0]] 60).1 ≠
      [⟨"a", "x", none⟩] := by
  norm_num [reciprocal_rank_fusion_store, processListRef, addContributionRef, refId,
    writeScore]
  simp

/-- C7 (amended).  Object-level fusion performs no I/O and leaves the heap's
length and every object's `id` and `content` unchanged; its only effect on
the arguments is writing the `rrf_score` key of first-occurrence chunk
objects, as the concrete one-chunk run shows. -/
theorem rrf_store_only_writes_rrf_score (heap : List ChunkObj)
    (result_lists : List (List ℕ)) (k : ℕ) :
    ((reciprocal_rank_fusion_store heap result_lists k).1).map
        (fun c => (c.id, c.content)) = heap.map (fun c => (c.id, c.content)) ∧
    ((reciprocal_rank_fusion_store heap result_lists k).1).length = heap.length ∧
    (reciprocal_rank_fusion_store [⟨"a", "x", none⟩] [[0]] 60).1 =
      [⟨"a", "x", some (1/61)⟩] := by
  refine ⟨map_proj_writeScore_foldl _ _, ?_, ?_⟩
  · have h := congrArg List.length (map_proj_writeScore_foldl
      ((result_lists.foldl (fun acc rs => processListRef heap k acc 0 rs) [])) heap)
    simpa using h
  · norm_num [reciprocal_rank_fusion_store, processListRef, addContributionRef, refId,
      writeScore]

/-! ### Claim theorems for reranking, query expansion and retrieval -/

/-- C4.  `rerank_chunks` is total (never raises to its caller) and, whenever
the LLM call or the handling of its JSON response fails, returns the
candidates in their original input order truncated to the effective
`top_n`; on every outcome the result respects the `top_n` bound. -/
theorem rerank_fallback_original_order (query : String) (chunks : List Chunk)
    (top_n : Option ℕ) (rerank_top_n : ℕ) :
    rerank_chunks query chunks top_n rerank_top_n none =
      chunks.take (effectiveTopN top_n rerank_top_n) ∧
    ∀ llm, (rerank_chunks query chunks top_n rerank_top_n llm).length ≤
      effectiveTopN top_n rerank_top_n := by
  constructor
  · by_cases h : chunks = [] <;> simp [rerank_chunks, h]
  · intro llm
    by_cases h : chunks = []
    · simp [rerank_chunks, h]
    · cases llm with
      | none => simp [rerank_chunks, h, List.length_take_le]
      | some rankings => simp [rerank_chunks, h, List.length_take_le]

/-- C5.  Query expansion returns the empty list on any internal failure,
and `retrieve_chunks` with expansion enabled but an empty expansion result
behaves exactly like `retrieve_chunks` with expansion disabled (single
query, no second fusion pass), whatever `sub_queries` value the disabled
run is nominally given. -/
theorem expansion_failure_like_disabled (sem kw : String → List Chunk)
    (rerankFn : String → List Chunk → ℕ → List Chunk) (st : Settings)
    (query : String) (count top_k : ℕ) :
    generate_sub_queries query count none = [] ∧
    ∀ subs, retrieve_chunks sem kw rerankFn { st with rag_fusion_enabled := true }
        query (generate_sub_queries query count none) top_k =
      retrieve_chunks sem kw rerankFn { st with rag_fusion_enabled := false }
        query subs top_k := by
  refine ⟨rfl, fun subs => ?_⟩
  simp [retrieve_chunks, generate_sub_queries]

/-- C8 counterexample.  `generate_sub_queries` does not filter the original
query out of the model's validated response: if the model echoes the
original query, it is returned. -/
theorem generate_sub_queries_can_echo_original :
    "q" ∈ generate_sub_queries "q" 3 (some ["q"]) := by
  simp [generate_sub_queries]

/-- C8 (amended).  `generate_sub_queries` returns at most `count` strings
(possibly fewer or empty) and `[]` on any failure; the validated response
is passed through as `queries[:count]` with no filtering, so exclusion of
the original query is only requested from the model by the prompt, not
enforced by the code. -/
theorem generate_sub_queries_bounded (query : String) (count : ℕ)
    (llm : Option (List String)) :
    (generate_sub_queries query count llm).length ≤ count ∧
    generate_sub_queries query count none = [] ∧
    ∀ qs, generate_sub_queries query count (some qs) = qs.take count := by
  refine ⟨?_, rfl, fun qs => rfl⟩
  cases llm with
  | none => simp [generate_sub_queries]
  | some qs => simp [generate_sub_queries, List.length_take_le]

/-! ### Claim theorems for the parsers and orchestration loops -/

/-- C2 evidence.  The tool-call parser implemented at `llm.py` lines
235-257 recognises only the tag-delimited `<function=...>` encoding: on
the spec's wrapped-JSON example (also exercised by the repository's own
test `test_format2_tool_call_json`) it returns `None` instead of one
`web_search` call, while the tag form parses as expected. -/
theorem parse_text_tool_calls_only_tag_form :
    _parse_text_tool_calls
        "<tool_call>\x7b\"name\":\"web_search\",\"parameters\":\x7b\"query\":\"y\"\x7d\x7d</tool_call>" =
      none ∧
    _parse_text_tool_calls
        "<function=web_search>\n<parameter=query>x</parameter>\n</function>" =
      some [⟨"web_search", [("query", "x")]⟩] ∧
    _parse_text_tool_calls "[\x7b\"name\": \"graph_search\", \"arguments\": \x7b\"mode\": \"global\"\x7d\x7d]" =
      none := by
  refine ⟨by decide, by decide, by decide⟩

/-- Round-count bound of the chat tool loop: each iteration makes one
model call, so at most `rounds + fuel` calls happen in total. -/
theorem chatToolLoop_rounds_le (model : List Message → ModelResponse)
    (execTool : String → List (String × String) → String) :
    ∀ fuel msgs rounds,
      (chatToolLoop model execTool msgs rounds fuel).rounds ≤ rounds + fuel := by
  intro fuel
  induction fuel with
  | zero => intro msgs rounds; simp [chatToolLoop]
  | succ n ih =>
    intro msgs rounds
    simp only [chatToolLoop]
    split
    · split
      · exact le_trans (ih _ _) (by omega)
      · simp
    · exact le_trans (ih _ _) (by omega)

/-- When the model requests native tool calls on every response, the loop
consumes all its rounds and falls through to the final stream. -/
theorem chatToolLoop_always_tools (model : List Message → ModelResponse)
    (execTool : String → List (String × String) → String)
    (h : ∀ ms, (model ms).finish_reason = "tool_calls" ∧ (model ms).tool_calls ≠ []) :
    ∀ fuel msgs rounds,
      (chatToolLoop model execTool msgs rounds fuel).rounds = rounds + fuel ∧
      (chatToolLoop model execTool msgs rounds fuel).outcome = ChatOutcome.finalStream := by
  intro fuel
  induction fuel with
  | zero => intro msgs rounds; simp [chatToolLoop]
  | succ n ih =>
    intro msgs rounds
    simp only [chatToolLoop]
    rw [if_neg (by push_neg; exact h msgs)]
    refine ⟨?_, (ih _ _).2⟩
    rw [(ih _ _).1]
    omega

/-- C3.  With tools enabled, the chat orchestration loop executes at most
`MAX_TOOL_ROUNDS` (3) rounds for every model behaviour and, when the model
requests a tool call on every response, exactly `MAX_TOOL_ROUNDS` rounds
followed by the unconditional final streaming completion — the turn always
terminates with content. -/
theorem chat_loop_round_cap (model : List Message → ModelResponse)
    (execTool : String → List (String × String) → String) (messages : List Message) :
    (stream_chat_completion model execTool messages).rounds ≤ MAX_TOOL_ROUNDS ∧
    ((∀ ms, (model ms).finish_reason = "tool_calls" ∧ (model ms).tool_calls ≠ []) →
      (stream_chat_completion model execTool messages).rounds = MAX_TOOL_ROUNDS ∧
      (stream_chat_completion model execTool messages).outcome =
        ChatOutcome.finalStream) := by
  constructor
  · have := chatToolLoop_rounds_le model execTool MAX_TOOL_ROUNDS
      (⟨"system", SYSTEM_PROMPT_WITH_TOOLS⟩ :: messages) 0
    simpa [stream_chat_completion] using this
  · intro h
    have := chatToolLoop_always_tools model execTool h MAX_TOOL_ROUNDS
      (⟨"system", SYSTEM_PROMPT_WITH_TOOLS⟩ :: messages) 0
    simpa [stream_chat_completion] using this

/-- Witness for C3: a model stub that always requests a native tool call
runs exactly three rounds and ends in the final streaming call. -/
theorem chat_loop_round_cap_witness :
    (stream_chat_completion (fun _ => ⟨"tool_calls", "", [⟨"1", "retrieve_documents", []⟩]⟩)
        (fun _ _ => "ok") []).rounds = MAX_TOOL_ROUNDS ∧
    (stream_chat_completion (fun _ => ⟨"tool_calls", "", [⟨"1", "retrieve_documents", []⟩]⟩)
        (fun _ _ => "ok") []).outcome = ChatOutcome.finalStream :=
  (chat_loop_round_cap (fun _ => ⟨"tool_calls", "", [⟨"1", "retrieve_documents", []⟩]⟩)
    (fun _ _ => "ok") []).2 (fun _ => ⟨rfl, by simp⟩)

/-- Text-parsed sub-agent calls are filtered to the allowlist before any
call object is built. -/
theorem sub_agent_parser_allowlisted (content : String) (tcs : List ToolCall)
    (h : _parse_sub_agent_tool_calls content = some tcs) :
    ∀ tc ∈ tcs, tc.name ∈ ALLOWED_TOOLS := by
  simp only [_parse_sub_agent_tool_calls] at h
  split at h
  · exact absurd h (by simp)
  · split at h
    · exact absurd h (by simp)
    · rw [Option.some.injEq] at h
      subst h
      intro tc htc
      obtain ⟨m, hm, hmk⟩ := List.mem_map.mp htc
      have hmem := (List.mem_filter.mp hm).2
      rw [← hmk]
      simpa using hmem

/-- Executed-trace additions of native sub-agent call handling stay inside
the allowlist. -/
theorem processNative_executed_allowed
    (execTool : String → List (String × String) → String)
    (tcs : List ToolCallNative) :
    ∀ t ∈ (processNativeSubAgentCalls execTool tcs).2, t ∈ ALLOWED_TOOLS := by
  induction tcs with
  | nil => simp [processNativeSubAgentCalls]
  | cons tc tcs ih =>
    simp only [processNativeSubAgentCalls]
    by_cases hc : tc.name ∈ ALLOWED_TOOLS
    · rw [if_pos hc]
      intro t ht
      rcases List.mem_cons.mp ht with rfl | ht
      · exact hc
      · exact ih t ht
    · rw [if_neg hc]
      exact ih

/-- Loop invariant: the executed-tool trace of the sub-agent loop only ever
grows by allowlisted names. -/
theorem subAgentLoop_executed_allowed (model : List Message → ModelResponse)
    (execTool : String → List (String × String) → String) :
    ∀ fuel msgs ex, (∀ t ∈ ex, t ∈ ALLOWED_TOOLS) →
      ∀ t ∈ (subAgentLoop model execTool msgs ex fuel).executed, t ∈ ALLOWED_TOOLS := by
  intro fuel
  induction fuel with
  | zero =>
    intro msgs ex hex
    simpa [subAgentLoop] using hex
  | succ n ih =>
    intro msgs ex hex
    simp only [subAgentLoop]
    split
    · split
      case _ tcs heq =>
        apply ih
        intro t ht
        rcases List.mem_append.mp ht with ht | ht
        · exact hex t ht
        · obtain ⟨tc, htc, rfl⟩ := List.mem_map.mp ht
          exact sub_agent_parser_allowlisted _ tcs heq tc htc
      case _ => simpa using hex
    · apply ih
      intro t ht
      rcases List.mem_append.mp ht with ht | ht
      · exact hex t ht
      · exact processNative_executed_allowed execTool _ t ht

/-- C9.  In the sub-agent loop only the two allowlisted tools are ever
executed: the executed-tool trace of every run is contained in
`ALLOWED_TOOLS`; a native call whose name is outside the allowlist
receives exactly the "not available" tool message without its handler
running; and text-parsed calls to any other tool are filtered out before
execution. -/
theorem sub_agent_tool_allowlist (model : List Message → ModelResponse)
    (execTool : String → List (String × String) → String)
    (query : String) (focus_areas : Option (List String)) :
    (∀ t ∈ (run_sub_agent model execTool query focus_areas).executed,
        t ∈ ALLOWED_TOOLS) ∧
    (∀ (execT : String → List (String × String) → String) (tc : ToolCallNative),
        tc.name ∉ ALLOWED_TOOLS →
        processNativeSubAgentCalls execT [tc] =
          ([⟨"tool", "Tool \x27" ++ tc.name ++ "\x27 is not available."⟩], [])) ∧
    (∀ content tcs, _parse_sub_agent_tool_calls content = some tcs →
        ∀ tc ∈ tcs, tc.name ∈ ALLOWED_TOOLS) := by
  refine ⟨?_, ?_, ?_⟩
  · exact subAgentLoop_executed_allowed model execTool MAX_SUB_AGENT_ROUNDS _ [] (by simp)
  · intro execT tc htc
    simp [processNativeSubAgentCalls, htc]
  · exact fun content tcs h => sub_agent_parser_allowlisted content tcs h

/-- Witness for C9: a native call to the non-allowlisted `web_search` tool
yields exactly the "not available" tool message and an empty executed
trace. -/
theorem sub_agent_tool_allowlist_witness :
    processNativeSubAgentCalls (fun _ _ => "r") [⟨"1", "web_search", []⟩] =
      ([⟨"tool", "Tool \x27web_search\x27 is not available."⟩], []) :=
  (sub_agent_tool_allowlist (fun _ => ⟨"stop", "", []⟩) (fun _ _ => "r") "" none).2.1
    (fun _ _ => "r") ⟨"1", "web_search", []⟩ (by decide)

end AgenticRag
